import Mathlib

/-!
Shallow embedding of the `Sefn::Trie<T>` class from `include/Sefn/Trie.hpp`
and proofs of the specified properties of its public operations.

Modelling conventions:
* A C++ node is `Trie.node object children`; the `T* object` member becomes
  `Option T` (`none` models `nullptr`), and the `std::map<char, Trie*>`
  member becomes an association list `List (Char × Trie T)` whose keys are
  kept in strictly ascending order, exactly the order `std::map` iterates in.
* Strings are `List Char`.
* Mutating member functions become functions returning the updated tree
  (`removeRecursive` additionally returns its `bool` result, as a pair).
* `Trie.wf` captures the `std::map` representation invariant (strictly
  sorted, hence duplicate-free, keys in every children map); every tree a
  C++ program can observe satisfies it.
-/

namespace Sefn

/-- A trie node. `object` models the `T* object` member (`none` = `nullptr`);
`children` models `std::map<char, Trie*>` as a key-ordered association
list. -/
inductive Trie (T : Type) : Type where
  | node (object : Option T) (children : List (Char × Trie T)) : Trie T

namespace Trie

variable {T : Type}

/-- The `object` member of a node. -/
def object : Trie T → Option T
  | node o _ => o

/-- The `children` member of a node. -/
def children : Trie T → List (Char × Trie T)
  | node _ cs => cs

/-- A default-constructed `Trie` (no object, no children). -/
def empty : Trie T := node none []

/-- `children.find(ch)` on the association list modelling the map. -/
def lookupChild (ch : Char) : List (Char × Trie T) → Option (Trie T)
  | [] => none
  | (k, c) :: rest => if ch = k then some c else lookupChild ch rest

/-- Store `c` under key `ch` (insert or overwrite), keeping the keys in
ascending order as `std::map` does. -/
def insertChild (ch : Char) (c : Trie T) : List (Char × Trie T) → List (Char × Trie T)
  | [] => [(ch, c)]
  | (k, d) :: rest =>
    if ch < k then (ch, c) :: (k, d) :: rest
    else if ch = k then (ch, c) :: rest
    else (k, d) :: insertChild ch c rest

/-- `children.erase(it)`: remove the entry with key `ch`, if present. -/
def eraseChild (ch : Char) : List (Char × Trie T) → List (Char × Trie T)
  | [] => []
  | (k, d) :: rest => if ch = k then rest else (k, d) :: eraseChild ch rest

/-- `Trie::find`: walk the children maps along the characters of the
string; `none` models the `nullptr` return. -/
def find : Trie T → List Char → Option (Trie T)
  | t, [] => some t
  | t, ch :: rest =>
    match lookupChild ch t.children with
    | none => none
    | some c => c.find rest

/-- `Trie::insert`: walk/extend the path character by character, creating
missing children, then set the terminal node's `object`. The inserted
pointer may itself be null (`none`). -/
def insert : Trie T → Option T → List Char → Trie T
  | t, o, [] => node o t.children
  | t, o, ch :: rest =>
    let child := (lookupChild ch t.children).getD empty
    node t.object (insertChild ch (child.insert o rest) t.children)

/-- `Trie::removeRecursive`: returns the updated node together with the
`bool` result "this node can be deleted by its parent". -/
def removeRecursive : Trie T → List Char → Trie T × Bool
  | t, [] =>
    match t.object with
    | none => (t, false)
    | some _ => (node none t.children, t.children.isEmpty)
  | t, ch :: rest =>
    match lookupChild ch t.children with
    | none => (t, false)
    | some child =>
      let r := child.removeRecursive rest
      if r.2 then
        let cs := eraseChild ch t.children
        (node t.object cs, t.object.isNone && cs.isEmpty)
      else
        (node t.object (insertChild ch r.1 t.children), false)

/-- `Trie::wordExists` (const overload): the object stored at the end of the
full path, or `none` when the path is missing or the object there is null. -/
def wordExists (t : Trie T) (word : List Char) : Option T :=
  match t.find word with
  | none => none
  | some c => c.object

/-- `Trie::prefixExists`. -/
def prefixExists (t : Trie T) (p : List Char) : Bool :=
  (t.find p).isSome

/-- `Trie::erase`: return false when `wordExists` fails, otherwise run
`removeRecursive` (whose top-level `bool` is discarded) and return true. -/
def erase (t : Trie T) (word : List Char) : Trie T × Bool :=
  if (t.wordExists word).isSome then ((t.removeRecursive word).1, true)
  else (t, false)

/-- `Trie::clear`: delete all children. The node's own `object` member is
not touched by the C++ code. -/
def clear (t : Trie T) : Trie T := node t.object []

mutual
/-- `Trie::getAllObjects`, i.e. `traverseRecursive` pushing into a vector:
the node's own object first (skipped when null), then the children in
ascending key order. -/
def getAllObjects : Trie T → List T
  | node o cs => o.toList ++ getAllObjectsList cs
/-- The traversal over a children list. -/
def getAllObjectsList : List (Char × Trie T) → List T
  | [] => []
  | (_, c) :: rest => c.getAllObjects ++ getAllObjectsList rest
end

/-- `Trie::autoComplete`. -/
def autoComplete (t : Trie T) (p : List Char) : List T :=
  match t.find p with
  | none => []
  | some n => n.getAllObjects

mutual
/-- Verification artifact: all (key, value) entries of a subtree, listed in
the same self-first, ascending-key order as `getAllObjects`. -/
def entries : Trie T → List (List Char × T)
  | node o cs => (o.toList.map fun v => ([], v)) ++ entriesList cs
/-- Entries of a children list, each key extended by its child key. -/
def entriesList : List (Char × Trie T) → List (List Char × T)
  | [] => []
  | (ch, c) :: rest => ((entries c).map fun e => (ch :: e.1, e.2)) ++ entriesList rest
end

/-- Entries at or below the node reached by a path, with full keys. -/
def entriesFrom (t : Trie T) (p : List Char) : List (List Char × T) :=
  match t.find p with
  | none => []
  | some n => n.entries.map fun e => (p ++ e.1, e.2)

/-- Keys of a children list are strictly ascending (`std::map` order). -/
def keysSorted : List (Char × Trie T) → Bool
  | [] => true
  | [_] => true
  | (k₁, _) :: (k₂, c₂) :: rest => decide (k₁ < k₂) && keysSorted ((k₂, c₂) :: rest)

mutual
/-- Representation well-formedness: every children list in the tree has
strictly sorted keys, as `std::map<char, Trie*>` guarantees. -/
def wf : Trie T → Bool
  | node _ cs => keysSorted cs && wfList cs
/-- Well-formedness of every tree in a children list. -/
def wfList : List (Char × Trie T) → Bool
  | [] => true
  | (_, c) :: rest => c.wf && wfList rest
end

mutual
/-- This subtree has no dead-end node anywhere, and its root itself is live
(holds a value or has a child). -/
def prunedSub : Trie T → Bool
  | node o cs => (o.isSome || !cs.isEmpty) && prunedList cs
/-- `prunedSub` for every tree in a children list. -/
def prunedList : List (Char × Trie T) → Bool
  | [] => true
  | (_, c) :: rest => c.prunedSub && prunedList rest
end

/-- The spec's shape invariant: no reachable non-root node has both no value
and no children (the root is exempt). -/
def inv (t : Trie T) : Bool := prunedList t.children

/-- The spec's autocomplete example tree: "car" ↦ 0, "cat" ↦ 1,
"cart" ↦ 2, "dog" ↦ 3, inserted into an empty tree in that order. -/
def dictExample : Trie ℕ :=
  (((empty.insert (some 0) ['c', 'a', 'r']).insert (some 1) ['c', 'a', 't']).insert
    (some 2) ['c', 'a', 'r', 't']).insert (some 3) ['d', 'o', 'g']

/-- Structural induction tailored to the nested `Trie` type: to prove a
property of every tree it suffices to prove it for a node assuming it for
each child. -/
theorem inductionOn {motive : Trie T → Prop}
    (ind : ∀ o cs, (∀ ch c, (ch, c) ∈ cs → motive c) → motive (node o cs)) :
    ∀ t, motive t
  | node o cs => ind o cs fun _ c hmem => inductionOn ind c
termination_by t => sizeOf t
decreasing_by
  have h1 := List.sizeOf_lt_of_mem hmem
  simp at h1 ⊢
  omega

/-! ### Lemmas about the association-list operations -/

theorem lookupChild_insertChild_self (ch : Char) (c : Trie T) :
    ∀ l : List (Char × Trie T), lookupChild ch (insertChild ch c l) = some c
  | [] => by simp [insertChild, lookupChild]
  | (k, d) :: rest => by
    by_cases h1 : ch < k
    · simp [insertChild, h1, lookupChild]
    · by_cases h2 : ch = k
      · simp [insertChild, h1, h2, lookupChild]
      · simp [insertChild, h1, h2, lookupChild, lookupChild_insertChild_self ch c rest]

theorem lookupChild_insertChild_ne {d ch : Char} (hne : d ≠ ch) (c : Trie T) :
    ∀ l : List (Char × Trie T), lookupChild d (insertChild ch c l) = lookupChild d l
  | [] => by simp [insertChild, lookupChild, hne]
  | (k, e) :: rest => by
    by_cases h1 : ch < k
    · simp [insertChild, h1, lookupChild, hne]
    · by_cases h2 : ch = k
      · subst h2
        simp [insertChild, h1, lookupChild, hne]
      · simp [insertChild, h1, h2, lookupChild, lookupChild_insertChild_ne hne c rest]

theorem lookupChild_eraseChild_ne {d ch : Char} (hne : d ≠ ch) :
    ∀ l : List (Char × Trie T), lookupChild d (eraseChild ch l) = lookupChild d l
  | [] => by simp [eraseChild]
  | (k, e) :: rest => by
    by_cases h1 : ch = k
    · subst h1
      simp [eraseChild, lookupChild, hne]
    · simp [eraseChild, h1, lookupChild, lookupChild_eraseChild_ne hne rest]

theorem mem_of_lookupChild {ch : Char} {c : Trie T} :
    ∀ {l : List (Char × Trie T)}, lookupChild ch l = some c → (ch, c) ∈ l
  | [], h => by simp [lookupChild] at h
  | (k, d) :: rest, h => by
    by_cases h1 : ch = k
    · subst h1
      simp [lookupChild] at h
      subst h
      exact List.mem_cons_self _ _
    · simp [lookupChild, h1] at h
      exact List.mem_cons_of_mem _ (mem_of_lookupChild h)

theorem mem_insertChild {p : Char × Trie T} {ch : Char} {c : Trie T} :
    ∀ {l : List (Char × Trie T)}, p ∈ insertChild ch c l → p = (ch, c) ∨ p ∈ l
  | [], h => by simpa [insertChild] using h
  | (k, d) :: rest, h => by
    by_cases h1 : ch < k
    · simp only [insertChild, if_pos h1, List.mem_cons] at h
      rcases h with h | h | h
      · exact Or.inl h
      · exact Or.inr (by simp [h])
      · exact Or.inr (by simp [h])
    · by_cases h2 : ch = k
      · simp only [insertChild, if_neg h1, if_pos h2, List.mem_cons] at h
        rcases h with h | h
        · exact Or.inl h
        · exact Or.inr (List.mem_cons_of_mem _ h)
      · simp only [insertChild, if_neg h1, if_neg h2, List.mem_cons] at h
        rcases h with h | h
        · exact Or.inr (by simp [h])
        · rcases mem_insertChild h with h3 | h3
          · exact Or.inl h3
          · exact Or.inr (List.mem_cons_of_mem _ h3)

theorem mem_eraseChild {p : Char × Trie T} {ch : Char} :
    ∀ {l : List (Char × Trie T)}, p ∈ eraseChild ch l → p ∈ l
  | [], h => by simpa [eraseChild] using h
  | (k, d) :: rest, h => by
    by_cases h1 : ch = k
    · simp only [eraseChild, if_pos h1] at h
      exact List.mem_cons_of_mem _ h
    · simp only [eraseChild, if_neg h1, List.mem_cons] at h
      rcases h with h | h
      · exact by simp [h]
      · exact List.mem_cons_of_mem _ (mem_eraseChild h)

/-- `keysSorted` says precisely that the keys are pairwise strictly
increasing along the list. -/
theorem keysSorted_iff :
    ∀ {l : List (Char × Trie T)},
      keysSorted l = true ↔ l.Pairwise (fun a b => a.1 < b.1)
  | [] => by simp [keysSorted]
  | [p] => by simp [keysSorted]
  | (k₁, c₁) :: (k₂, c₂) :: rest => by
    have ih := keysSorted_iff (l := (k₂, c₂) :: rest)
    simp only [keysSorted, Bool.and_eq_true, decide_eq_true_eq, ih,
      List.pairwise_cons, List.mem_cons]
    constructor
    · rintro ⟨hlt, hall, hrest⟩
      refine ⟨?_, hall, hrest⟩
      rintro p (rfl | hp)
      · exact hlt
      · exact lt_trans hlt (hall p hp)
    · rintro ⟨hall₁, hall₂, hrest⟩
      exact ⟨hall₁ _ (Or.inl rfl), hall₂, hrest⟩

theorem lookupChild_eq_none {k : Char} :
    ∀ {l : List (Char × Trie T)}, (∀ p ∈ l, p.1 ≠ k) → lookupChild k l = none
  | [], _ => rfl
  | (d, c) :: rest, h => by
    have hd : d ≠ k := h (d, c) (List.mem_cons_self _ _)
    simp [lookupChild, Ne.symm hd, lookupChild_eq_none fun p hp => h p (List.mem_cons_of_mem _ hp)]

theorem lookupChild_eraseChild_self {ch : Char} :
    ∀ {l : List (Char × Trie T)}, keysSorted l = true →
      lookupChild ch (eraseChild ch l) = none
  | [], _ => rfl
  | (k, d) :: rest, h => by
    rw [keysSorted_iff, List.pairwise_cons] at h
    by_cases h1 : ch = k
    · subst h1
      simp only [eraseChild, if_pos rfl]
      exact lookupChild_eq_none fun p hp => ne_of_gt (h.1 p hp)
    · simp only [eraseChild, if_neg h1, lookupChild, if_neg h1]
      exact lookupChild_eraseChild_self (keysSorted_iff.mpr h.2)

theorem keysSorted_insertChild (ch : Char) (c : Trie T) :
    ∀ {l : List (Char × Trie T)}, keysSorted l = true →
      keysSorted (insertChild ch c l) = true
  | [], _ => by simp [insertChild, keysSorted]
  | (k, d) :: rest, h => by
    rw [keysSorted_iff, List.pairwise_cons] at h
    obtain ⟨hk, hrest⟩ := h
    by_cases h1 : ch < k
    · rw [keysSorted_iff]
      simp only [insertChild, if_pos h1, List.pairwise_cons, List.mem_cons]
      refine ⟨?_, hk, hrest⟩
      rintro p (rfl | hp)
      · exact h1
      · exact lt_trans h1 (hk p hp)
    · by_cases h2 : ch = k
      · subst h2
        have heq : insertChild ch c ((ch, d) :: rest) = (ch, c) :: rest := by
          simp [insertChild, h1]
        rw [heq, keysSorted_iff, List.pairwise_cons]
        exact ⟨hk, hrest⟩
      · have h3 : k < ch := by
          rcases lt_trichotomy ch k with h4 | h4 | h4
          · exact absurd h4 h1
          · exact absurd h4 h2
          · exact h4
        have ih := keysSorted_insertChild ch c (keysSorted_iff.mpr hrest)
        rw [keysSorted_iff] at ih ⊢
        simp only [insertChild, if_neg h1, if_neg h2, List.pairwise_cons]
        refine ⟨?_, ih⟩
        intro p hp
        rcases mem_insertChild hp with rfl | hp
        · exact h3
        · exact hk p hp

theorem keysSorted_eraseChild (ch : Char) :
    ∀ {l : List (Char × Trie T)}, keysSorted l = true →
      keysSorted (eraseChild ch l) = true
  | [], _ => rfl
  | (k, d) :: rest, h => by
    rw [keysSorted_iff, List.pairwise_cons] at h
    obtain ⟨hk, hrest⟩ := h
    by_cases h1 : ch = k
    · simp only [eraseChild, if_pos h1]
      exact keysSorted_iff.mpr hrest
    · have ih := keysSorted_eraseChild ch (keysSorted_iff.mpr hrest)
      rw [keysSorted_iff] at ih ⊢
      simp only [eraseChild, if_neg h1, List.pairwise_cons]
      exact ⟨fun p hp => hk p (mem_eraseChild hp), ih⟩

theorem insertChild_ne_nil (ch : Char) (c : Trie T) :
    ∀ l : List (Char × Trie T), insertChild ch c l ≠ []
  | [] => by simp [insertChild]
  | (k, d) :: rest => by
    by_cases h1 : ch < k
    · simp [insertChild, h1]
    · by_cases h2 : ch = k
      · simp [insertChild, h1, h2]
      · simp [insertChild, h1, h2]

theorem wfList_iff (l : List (Char × Trie T)) :
    wfList l = true ↔ ∀ p ∈ l, wf p.2 = true := by
  induction l with
  | nil => simp [wfList]
  | cons hd rest ih =>
    obtain ⟨k, c⟩ := hd
    simp [wfList, ih, List.forall_mem_cons]

theorem prunedList_iff (l : List (Char × Trie T)) :
    prunedList l = true ↔ ∀ p ∈ l, prunedSub p.2 = true := by
  induction l with
  | nil => simp [prunedList]
  | cons hd rest ih =>
    obtain ⟨k, c⟩ := hd
    simp [prunedList, ih, List.forall_mem_cons]

/-! ### Lemmas about `find`, `insert`, `wordExists` -/

@[simp] theorem object_node (o : Option T) (cs : List (Char × Trie T)) :
    object (node o cs) = o := rfl

@[simp] theorem children_node (o : Option T) (cs : List (Char × Trie T)) :
    children (node o cs) = cs := rfl

theorem find_nil (t : Trie T) : t.find [] = some t := rfl

theorem wordExists_eq_bind (t : Trie T) (w : List Char) :
    t.wordExists w = (t.find w).bind object := by
  cases h : t.find w <;> simp [wordExists, h]

theorem find_append (t : Trie T) (p q : List Char) :
    t.find (p ++ q) = (t.find p).bind fun n => n.find q := by
  induction p generalizing t with
  | nil => simp [find]
  | cons ch p ih =>
    cases h : lookupChild ch t.children with
    | none => simp [find, h]
    | some c => simp [find, h, ih]

theorem wordExists_insert_self (t : Trie T) (o : Option T) (w : List Char) :
    (t.insert o w).wordExists w = o := by
  induction w generalizing t with
  | nil => simp [insert, wordExists, find, object]
  | cons ch rest ih =>
    simp only [insert]
    simp only [wordExists, find, children_node, lookupChild_insertChild_self]
    exact ih _

theorem wf_node_iff (o : Option T) (cs : List (Char × Trie T)) :
    wf (node o cs) = true ↔ keysSorted cs = true ∧ ∀ p ∈ cs, wf p.2 = true := by
  simp [wf, wfList_iff]

theorem wf_empty : (empty : Trie T).wf = true := rfl

theorem wf_insert (o : Option T) (w : List Char) :
    ∀ t : Trie T, t.wf = true → (t.insert o w).wf = true := by
  induction w with
  | nil =>
    intro t ht
    cases t with
    | node ob cs => simpa [insert, wf] using ht
  | cons ch rest ih =>
    intro t ht
    cases t with
    | node ob cs =>
      rw [wf_node_iff] at ht
      obtain ⟨hs, hw⟩ := ht
      simp only [insert, children_node]
      rw [wf_node_iff]
      refine ⟨keysSorted_insertChild _ _ hs, ?_⟩
      intro p hp
      rcases mem_insertChild hp with rfl | hp
      · apply ih
        cases h : lookupChild ch cs with
        | none => simpa [h] using wf_empty
        | some c => simpa [h] using hw _ (mem_of_lookupChild h)
      · exact hw p hp

theorem wf_find {t n : Trie T} {p : List Char} (ht : t.wf = true) (h : t.find p = some n) :
    n.wf = true := by
  induction p generalizing t with
  | nil =>
    simp only [find, Option.some.injEq] at h
    exact h ▸ ht
  | cons ch rest ih =>
    cases t with
    | node o cs =>
      simp only [find, children_node] at h
      cases hl : lookupChild ch cs with
      | none => rw [hl] at h; exact absurd h (by simp)
      | some c =>
        rw [hl] at h
        exact ih ((wf_node_iff _ _ |>.mp ht).2 _ (mem_of_lookupChild hl)) h

theorem find_insert_self_isSome (t : Trie T) (o : Option T) (w : List Char) :
    ((t.insert o w).find w).isSome = true := by
  induction w generalizing t with
  | nil => simp [find]
  | cons ch rest ih =>
    simp only [insert]
    simp only [find, children_node, lookupChild_insertChild_self]
    exact ih _

/-! ### Lemmas about the no-dead-end invariant -/

theorem prunedSub_node_iff (o : Option T) (cs : List (Char × Trie T)) :
    prunedSub (node o cs) = true ↔
      (o.isSome || !cs.isEmpty) = true ∧ ∀ p ∈ cs, prunedSub p.2 = true := by
  simp [prunedSub, prunedList_iff]

theorem prunedList_of_prunedSub {t : Trie T} (h : prunedSub t = true) :
    prunedList t.children = true := by
  cases t with
  | node o cs =>
    rw [prunedSub_node_iff] at h
    exact (prunedList_iff cs).mpr h.2

theorem prunedSub_insert (v : T) (w : List Char) :
    ∀ t : Trie T, prunedList t.children = true →
      prunedSub (t.insert (some v) w) = true := by
  induction w with
  | nil =>
    intro t h
    cases t with
    | node o cs =>
      rw [children_node] at h
      rw [insert, prunedSub_node_iff]
      exact ⟨by simp, (prunedList_iff cs).mp h⟩
  | cons ch rest ih =>
    intro t h
    cases t with
    | node o cs =>
      rw [children_node] at h
      simp only [insert, children_node]
      rw [prunedSub_node_iff]
      constructor
      · have := insertChild_ne_nil ch
          (((lookupChild ch cs).getD empty).insert (some v) rest) cs
        simp [List.isEmpty_iff, this]
      · intro p hp
        rcases mem_insertChild hp with rfl | hp
        · apply ih
          cases hl : lookupChild ch cs with
          | none => simp [hl, empty, prunedList]
          | some c =>
            have hc := (prunedList_iff cs).mp h _ (mem_of_lookupChild hl)
            simpa [hl] using prunedList_of_prunedSub hc
        · exact (prunedList_iff cs).mp h p hp

/-! ### Lemmas about `removeRecursive` and `erase` -/

theorem removeRecursive_nil (o : Option T) (cs : List (Char × Trie T)) :
    removeRecursive (node o cs) [] =
      match o with
      | none => (node o cs, false)
      | some _ => (node none cs, cs.isEmpty) := rfl

theorem removeRecursive_cons (o : Option T) (cs : List (Char × Trie T))
    (ch : Char) (rest : List Char) :
    removeRecursive (node o cs) (ch :: rest) =
      match lookupChild ch cs with
      | none => (node o cs, false)
      | some child =>
        if (child.removeRecursive rest).2 then
          (node o (eraseChild ch cs),
            o.isNone && (eraseChild ch cs).isEmpty)
        else
          (node o (insertChild ch (child.removeRecursive rest).1 cs), false) := rfl

theorem wordExists_cons (o : Option T) (cs : List (Char × Trie T))
    (ch : Char) (rest : List Char) :
    wordExists (node o cs) (ch :: rest) =
      match lookupChild ch cs with
      | none => none
      | some c => c.wordExists rest := by
  cases h : lookupChild ch cs <;> simp [wordExists, find, h]

theorem wordExists_removeRecursive {w : List Char} :
    ∀ {t : Trie T} {v : T}, t.wf = true → t.wordExists w = some v →
      ((t.removeRecursive w).1).wordExists w = none := by
  induction w with
  | nil =>
    intro t v ht h
    cases t with
    | node o cs =>
      simp only [wordExists, find, object_node] at h
      rw [h] at *
      simp [removeRecursive_nil, wordExists, find, object]
  | cons ch rest ih =>
    intro t v ht h
    cases t with
    | node o cs =>
      rw [wf_node_iff] at ht
      obtain ⟨hs, hw⟩ := ht
      rw [wordExists_cons] at h
      rw [removeRecursive_cons]
      cases hl : lookupChild ch cs with
      | none => rw [hl] at h; exact absurd h (by simp)
      | some child =>
        rw [hl] at h
        simp only
        by_cases hd : (child.removeRecursive rest).2 = true
        · simp only [hd, if_true]
          rw [wordExists_cons, lookupChild_eraseChild_self hs]
        · simp only [hd, Bool.false_eq_true, if_false]
          rw [wordExists_cons, lookupChild_insertChild_self]
          exact ih (hw _ (mem_of_lookupChild hl)) h

theorem wf_removeRecursive (w : List Char) :
    ∀ t : Trie T, t.wf = true → ((t.removeRecursive w).1).wf = true := by
  induction w with
  | nil =>
    intro t ht
    cases t with
    | node o cs =>
      cases o with
      | none => simpa [removeRecursive_nil] using ht
      | some v =>
        rw [wf_node_iff] at ht
        simp only [removeRecursive_nil]
        exact wf_node_iff _ _ |>.mpr ht
  | cons ch rest ih =>
    intro t ht
    cases t with
    | node o cs =>
      rw [wf_node_iff] at ht
      obtain ⟨hs, hw⟩ := ht
      rw [removeRecursive_cons]
      cases hl : lookupChild ch cs with
      | none =>
        simp only
        exact wf_node_iff _ _ |>.mpr ⟨hs, hw⟩
      | some child =>
        simp only
        by_cases hd : (child.removeRecursive rest).2 = true
        · simp only [hd, if_true]
          exact wf_node_iff _ _ |>.mpr
            ⟨keysSorted_eraseChild _ hs, fun p hp => hw p (mem_eraseChild hp)⟩
        · simp only [hd, if_false]
          refine wf_node_iff _ _ |>.mpr ⟨keysSorted_insertChild _ _ hs, ?_⟩
          intro p hp
          rcases mem_insertChild hp with rfl | hp
          · exact ih child (hw _ (mem_of_lookupChild hl))
          · exact hw p hp

theorem erase_of_wordExists_none {t : Trie T} {w : List Char}
    (h : t.wordExists w = none) : t.erase w = (t, false) := by
  simp [erase, h]

theorem erase_of_wordExists_some {t : Trie T} {w : List Char} {v : T}
    (h : t.wordExists w = some v) : t.erase w = ((t.removeRecursive w).1, true) := by
  simp [erase, h]

theorem prunedSub_removeRecursive (w : List Char) :
    ∀ t : Trie T, prunedSub t = true →
      prunedList ((t.removeRecursive w).1).children = true
      ∧ ((t.removeRecursive w).2 = false →
          prunedSub (t.removeRecursive w).1 = true) := by
  induction w with
  | nil =>
    intro t h
    cases t with
    | node o cs =>
      rw [prunedSub_node_iff] at h
      obtain ⟨hlive, hlist⟩ := h
      cases o with
      | none =>
        simp only [removeRecursive_nil]
        exact ⟨(prunedList_iff cs).mpr hlist,
          fun _ => prunedSub_node_iff _ _ |>.mpr ⟨hlive, hlist⟩⟩
      | some v =>
        simp only [removeRecursive_nil]
        refine ⟨(prunedList_iff cs).mpr hlist, ?_⟩
        intro hfalse
        rw [prunedSub_node_iff]
        refine ⟨?_, hlist⟩
        simp only [Option.isSome_none, Bool.false_or]
        simp [hfalse]
  | cons ch rest ih =>
    intro t h
    cases t with
    | node o cs =>
      have hlist : ∀ p ∈ cs, prunedSub p.2 = true :=
        (prunedList_iff cs).mp (prunedList_of_prunedSub h)
      rw [removeRecursive_cons]
      cases hl : lookupChild ch cs with
      | none =>
        exact ⟨(prunedList_iff cs).mpr hlist, fun _ => h⟩
      | some child =>
        simp only
        have hchild : prunedSub child = true := hlist _ (mem_of_lookupChild hl)
        by_cases hd : (child.removeRecursive rest).2 = true
        · simp only [hd, if_true]
          constructor
          · rw [children_node, prunedList_iff]
            intro p hp
            exact hlist p (mem_eraseChild hp)
          · intro hfalse
            rw [prunedSub_node_iff]
            refine ⟨?_, fun p hp => hlist p (mem_eraseChild hp)⟩
            cases o with
            | some v => simp
            | none => simp only [Option.isNone_none, Bool.true_and] at hfalse; simp [hfalse]
        · simp only [hd, Bool.false_eq_true, if_false]
          obtain ⟨ih1, ih2⟩ := ih child hchild
          have hsub : prunedSub (child.removeRecursive rest).1 = true :=
            ih2 (by simpa using hd)
          have hall : ∀ p ∈ insertChild ch (child.removeRecursive rest).1 cs,
              prunedSub p.2 = true := by
            intro p hp
            rcases mem_insertChild hp with rfl | hp
            · exact hsub
            · exact hlist p hp
          refine ⟨(prunedList_iff _).mpr hall, ?_⟩
          intro _
          rw [prunedSub_node_iff]
          refine ⟨?_, hall⟩
          have := insertChild_ne_nil ch (child.removeRecursive rest).1 cs
          simp [List.isEmpty_iff, this]

end Trie

end Sefn

namespace Sefn.Trie

variable {T : Type}

/-! ### Claim theorems -/

/-- Claim C5: for every key K (including the empty key) and every value
reference V (possibly null), immediately after `insert(V, K)` on any tree,
`wordExists(K)` returns V; `insert` is a total function with no failure
conditions. -/
theorem C5_insert_roundtrip (t : Trie T) (V : Option T) (K : List Char) :
    (t.insert V K).wordExists K = V :=
  wordExists_insert_self t V K

/-- Claim C6: inserting K with V2 after inserting K with V1 makes
`wordExists(K)` return V2, and never V1 when the two values differ
(last-write-wins overwrite). -/
theorem C6_insert_overwrite (t : Trie T) (v₁ v₂ : T) (K : List Char) :
    ((t.insert (some v₁) K).insert (some v₂) K).wordExists K = some v₂
    ∧ (v₁ ≠ v₂ →
        ((t.insert (some v₁) K).insert (some v₂) K).wordExists K ≠ some v₁) := by
  constructor
  · exact wordExists_insert_self _ _ _
  · intro hne hcontra
    rw [wordExists_insert_self] at hcontra
    exact hne (Option.some.inj hcontra).symm

/-- Witness for C6 at a concrete input. -/
theorem C6_insert_overwrite_witness :
    ((Trie.empty.insert (some 0) ['a']).insert (some 1) ['a']).wordExists ['a'] = some 1
    ∧ ((Trie.empty.insert (some 0) ['a']).insert (some 1) ['a']).wordExists ['a'] ≠ some 0 :=
  ⟨(C6_insert_overwrite Trie.empty 0 1 ['a']).1,
   (C6_insert_overwrite Trie.empty 0 1 ['a']).2 (by decide)⟩

/-- Claim C4: when a key does not currently resolve to a stored value
(missing path, or a valueless node existing only as a path to other keys),
`erase` returns false and leaves the tree completely unchanged. -/
theorem C4_erase_not_found (t : Trie T) (K : List Char)
    (h : t.wordExists K = none) : t.erase K = (t, false) :=
  erase_of_wordExists_none h

/-- Witness for C4: "app" exists only as a path toward "apple", so erasing
it returns false and changes nothing. -/
theorem C4_erase_not_found_witness :
    (Trie.empty.insert (some 5) ['a', 'p', 'p', 'l', 'e']).erase ['a', 'p', 'p']
      = (Trie.empty.insert (some 5) ['a', 'p', 'p', 'l', 'e'], false) :=
  C4_erase_not_found _ _ (by decide)

/-- Claim C3: on a well-formed tree, if `wordExists(K)` returns a value then
`erase(K)` returns true, afterwards `wordExists(K)` returns not-found, and
an immediately repeated `erase(K)` returns false. -/
theorem C3_erase_correct (t : Trie T) (K : List Char) (v : T)
    (hwf : t.wf = true) (h : t.wordExists K = some v) :
    (t.erase K).2 = true
    ∧ ((t.erase K).1).wordExists K = none
    ∧ (((t.erase K).1).erase K).2 = false := by
  have h1 : t.erase K = ((t.removeRecursive K).1, true) := erase_of_wordExists_some h
  have h2 : ((t.removeRecursive K).1).wordExists K = none :=
    wordExists_removeRecursive hwf h
  refine ⟨by rw [h1], by rw [h1]; exact h2, ?_⟩
  rw [h1]
  rw [erase_of_wordExists_none h2]

/-- Witness for C3 at the spec's own example: insert a value for "test",
then erase it twice. -/
theorem C3_erase_correct_witness :
    ((Trie.empty.insert (some 100) ['t', 'e', 's', 't']).erase ['t', 'e', 's', 't']).2 = true
    ∧ (((Trie.empty.insert (some 100) ['t', 'e', 's', 't']).erase
        ['t', 'e', 's', 't']).1).wordExists ['t', 'e', 's', 't'] = none
    ∧ ((((Trie.empty.insert (some 100) ['t', 'e', 's', 't']).erase
        ['t', 'e', 's', 't']).1).erase ['t', 'e', 's', 't']).2 = false :=
  C3_erase_correct (Trie.empty.insert (some 100) ['t', 'e', 's', 't'])
    ['t', 'e', 's', 't'] 100 (by decide) (by decide)

/-- Claim C7: after inserting values for "apple" and "app" into an empty
tree and erasing "apple", the dead branch is pruned (`prefixExists("appl")`
is false) while "app" keeps its value. -/
theorem C7_pruning :
    (((Trie.empty.insert (some 0) ['a', 'p', 'p', 'l', 'e']).insert
        (some 1) ['a', 'p', 'p']).erase ['a', 'p', 'p', 'l', 'e']).2 = true
    ∧ ((((Trie.empty.insert (some 0) ['a', 'p', 'p', 'l', 'e']).insert
        (some 1) ['a', 'p', 'p']).erase
        ['a', 'p', 'p', 'l', 'e']).1).prefixExists ['a', 'p', 'p', 'l'] = false
    ∧ ((((Trie.empty.insert (some 0) ['a', 'p', 'p', 'l', 'e']).insert
        (some 1) ['a', 'p', 'p']).erase
        ['a', 'p', 'p', 'l', 'e']).1).wordExists ['a', 'p', 'p'] = some 1 := by
  decide

/-- Claim C9: the empty prefix always exists, and `prefixExists` is
downward closed: a true prefix stays true for every shorter prefix. -/
theorem C9_monotonicity (t : Trie T) :
    t.prefixExists [] = true
    ∧ ∀ P Q : List Char, t.prefixExists P = true → Q <+: P →
        t.prefixExists Q = true := by
  constructor
  · simp [prefixExists, find]
  · intro P Q hP hQ
    obtain ⟨s, rfl⟩ := hQ
    rw [prefixExists, find_append] at hP
    rw [prefixExists]
    cases h : t.find Q with
    | none => rw [h] at hP; simp at hP
    | some n => simp

/-- Witness for C9 at a concrete input. -/
theorem C9_monotonicity_witness :
    (Trie.empty.insert (some 0) ['h', 'e']).prefixExists [] = true
    ∧ (Trie.empty.insert (some 0) ['h', 'e']).prefixExists ['h'] = true :=
  ⟨(C9_monotonicity (Trie.empty.insert (some 0) ['h', 'e'])).1,
   (C9_monotonicity (Trie.empty.insert (some 0) ['h', 'e'])).2
     ['h', 'e'] ['h'] (by decide) ⟨['e'], rfl⟩⟩

/-- Claim C2 as stated is false on the code: `clear()` deletes the children
but does not touch the node's own `object`, so a value inserted for the
empty key survives a `clear()` and `wordExists("")` still returns it. -/
theorem C2_counterexample :
    ¬ (((Trie.empty.insert (some (0 : ℕ)) []).clear).wordExists ([] : List Char)
        = none) := by
  decide

/-- Claim C2 (amended): after `clear()` the children are gone: `wordExists`
returns not-found for every non-empty key, the empty prefix still exists,
no non-empty prefix exists, and `clear()` on an already-empty tree leaves
it empty; however the root's own value (the value of the empty key, if
any) is retained, not dropped. -/
theorem C2_clear_amended (t : Trie T) :
    (t.clear).wordExists [] = t.object
    ∧ (∀ K : List Char, K ≠ [] → (t.clear).wordExists K = none)
    ∧ (t.clear).prefixExists [] = true
    ∧ (∀ P : List Char, P ≠ [] → (t.clear).prefixExists P = false)
    ∧ (Trie.empty : Trie T).clear = Trie.empty := by
  refine ⟨?_, ?_, ?_, ?_, rfl⟩
  · simp [clear, wordExists, find, object]
  · intro K hK
    cases K with
    | nil => exact absurd rfl hK
    | cons ch rest => simp [clear, wordExists, find, lookupChild]
  · simp [prefixExists, find]
  · intro P hP
    cases P with
    | nil => exact absurd rfl hP
    | cons ch rest => simp [clear, prefixExists, find, lookupChild]

/-- Claim C8 as stated is false: `insert` with a null value reference
creates a path whose terminal node has no value and no children, and that
dead-end node persists after the call returns. -/
theorem C8_counterexample :
    (Trie.empty : Trie ℕ).inv = true
    ∧ ¬ (((Trie.empty : Trie ℕ).insert none ['a']).inv = true) := by
  decide

/-- Claim C8 (amended): `insert` of a non-null value, `erase`, and `clear`
preserve the invariant that no reachable non-root node has both no value
and no children (read-only queries are pure functions of the tree in this
model and mutate nothing); `insert` of a null value reference is the one
exception, able to leave dead-end path nodes behind. -/
theorem C8_invariant_amended (t : Trie T) (v : T) (w : List Char)
    (h : t.inv = true) :
    ((t.insert (some v) w).inv = true)
    ∧ (((t.erase w).1).inv = true)
    ∧ ((t.clear).inv = true) := by
  refine ⟨?_, ?_, rfl⟩
  · exact prunedList_of_prunedSub (prunedSub_insert v w t h)
  · by_cases hw : (t.wordExists w).isSome = true
    · obtain ⟨v', hv⟩ := Option.isSome_iff_exists.mp hw
      rw [erase_of_wordExists_some hv]
      have hlive : prunedSub t = true := by
        cases t with
        | node o cs =>
          rw [prunedSub_node_iff]
          refine ⟨?_, (prunedList_iff cs).mp h⟩
          cases w with
          | nil =>
            simp only [wordExists, find, object_node] at hv
            simp [hv]
          | cons ch rest =>
            rw [wordExists_cons] at hv
            cases hl : lookupChild ch cs with
            | none => rw [hl] at hv; exact absurd hv (by simp)
            | some c =>
              cases cs with
              | nil => simp [lookupChild] at hl
              | cons hd tl => simp
      exact (prunedSub_removeRecursive w t hlive).1
    · have hnone : t.wordExists w = none := by
        cases hcase : t.wordExists w with
        | none => rfl
        | some u => rw [hcase] at hw; exact absurd rfl hw
      rw [erase_of_wordExists_none hnone]
      exact h

/-- Witness for C8 (amended) at a concrete input. -/
theorem C8_invariant_amended_witness :
    (((Trie.empty.insert (some (0 : ℕ)) ['a', 'b']).insert (some 1) ['a']).inv = true)
    ∧ ((((Trie.empty.insert (some (0 : ℕ)) ['a', 'b']).erase ['a']).1).inv = true)
    ∧ (((Trie.empty.insert (some (0 : ℕ)) ['a', 'b']).clear).inv = true) :=
  C8_invariant_amended (Trie.empty.insert (some 0) ['a', 'b']) 1 ['a'] (by decide)

/-- Witness for C2 (amended) at a concrete input. -/
theorem C2_clear_amended_witness :
    ((Trie.empty.insert (some (0 : ℕ)) ['a']).clear).wordExists ['a'] = none
    ∧ ((Trie.empty.insert (some (0 : ℕ)) ['a']).clear).prefixExists ['a'] = false :=
  ⟨(C2_clear_amended (Trie.empty.insert (some 0) ['a'])).2.1 ['a'] (by decide),
   (C2_clear_amended (Trie.empty.insert (some 0) ['a'])).2.2.2.1 ['a'] (by decide)⟩

/-- Inserting a null object into an empty tree yields a value-free chain:
the traversal collects nothing from it. -/
theorem getAllObjects_insert_empty_none :
    ∀ s : List Char, ((empty : Trie T).insert none s).getAllObjects = []
  | [] => rfl
  | ch :: rest => by
    have ih : ((empty : Trie T).insert none rest).getAllObjects = [] :=
      getAllObjects_insert_empty_none rest
    show (node none [(ch, (empty : Trie T).insert none rest)]).getAllObjects = []
    simp [getAllObjects, getAllObjectsList, ih]

/-- Walking any leading part of the inserted path lands on the rest of the
value-free chain. -/
theorem find_insert_empty_none (p s : List Char) :
    ((empty : Trie T).insert none (p ++ s)).find p
      = some ((empty : Trie T).insert none s) := by
  induction p with
  | nil => rfl
  | cons ch p ih =>
    show (node none [(ch, (empty : Trie T).insert none (p ++ s))]).find (ch :: p)
      = some ((empty : Trie T).insert none s)
    simp [find, lookupChild, ih]

/-- Claim C10: inserting a null value reference creates the path but is
invisible to the value-level operations: `wordExists` returns not-found,
`erase` returns false and leaves the tree (hence the path nodes) unchanged,
`autoComplete` of any leading part of the key returns nothing, yet
`prefixExists` on the full key is true. -/
theorem C10_null_insert (K : List Char) :
    (((empty : Trie T).insert none K).wordExists K = none)
    ∧ (((empty : Trie T).insert none K).erase K = ((empty : Trie T).insert none K, false))
    ∧ (∀ P : List Char, P <+: K → ((empty : Trie T).insert none K).autoComplete P = [])
    ∧ (((empty : Trie T).insert none K).prefixExists K = true) := by
  have h1 : ((empty : Trie T).insert none K).wordExists K = none :=
    wordExists_insert_self _ _ _
  refine ⟨h1, erase_of_wordExists_none h1, ?_, ?_⟩
  · intro P hP
    obtain ⟨s, rfl⟩ := hP
    simp only [autoComplete, find_insert_empty_none]
    exact getAllObjects_insert_empty_none s
  · have h2 := find_insert_empty_none (T := T) K []
    rw [List.append_nil] at h2
    simp [prefixExists, h2]

/-- Witness for C10 at a concrete input. -/
theorem C10_null_insert_witness :
    (((empty : Trie ℕ).insert none ['a', 'b']).wordExists ['a', 'b'] = none)
    ∧ (((empty : Trie ℕ).insert none ['a', 'b']).autoComplete ['a'] = [])
    ∧ (((empty : Trie ℕ).insert none ['a', 'b']).prefixExists ['a', 'b'] = true) :=
  ⟨(C10_null_insert ['a', 'b']).1,
   (C10_null_insert ['a', 'b']).2.2.1 ['a'] ⟨['b'], rfl⟩,
   (C10_null_insert ['a', 'b']).2.2.2⟩

/-! ### The entries view of a trie: `autoComplete` correctness and ordering -/

theorem getAllObjectsList_eq (l : List (Char × Trie T))
    (h : ∀ p ∈ l, p.2.getAllObjects = (p.2.entries).map Prod.snd) :
    getAllObjectsList l = (entriesList l).map Prod.snd := by
  induction l with
  | nil => rfl
  | cons hd rest ih =>
    obtain ⟨ch, c⟩ := hd
    simp only [getAllObjectsList, entriesList, List.map_append, List.map_map]
    rw [h (ch, c) (List.mem_cons_self _ _),
      ih fun p hp => h p (List.mem_cons_of_mem _ hp)]
    rfl

theorem getAllObjects_eq_entries (t : Trie T) :
    t.getAllObjects = (t.entries).map Prod.snd := by
  induction t using inductionOn with
  | ind o cs ih =>
    simp only [getAllObjects, entries, List.map_append, List.map_map]
    congr 1
    · cases o <;> rfl
    · exact getAllObjectsList_eq cs fun p hp =>
        ih p.1 p.2 (by simpa using hp)

theorem mem_entriesList_iff {e : List Char × T} :
    ∀ {l : List (Char × Trie T)},
      e ∈ entriesList l ↔
        ∃ ch c e', (ch, c) ∈ l ∧ e' ∈ entries c ∧ e = (ch :: e'.1, e'.2)
  | [] => by
    constructor
    · intro h
      simp [entriesList] at h
    · rintro ⟨ch, c, e', hmem, -, -⟩
      simp at hmem
  | (ch, c) :: rest => by
    have ih := mem_entriesList_iff (e := e) (l := rest)
    simp only [entriesList, List.mem_append, List.mem_map, ih, List.mem_cons]
    constructor
    · rintro (⟨e', he', rfl⟩ | ⟨d, c', e', hmem, he', rfl⟩)
      · exact ⟨ch, c, e', Or.inl rfl, he', rfl⟩
      · exact ⟨d, c', e', Or.inr hmem, he', rfl⟩
    · rintro ⟨d, c', e', hdc, he', rfl⟩
      rcases hdc with hdc | hmem
      · injection hdc with h1 h2
        subst h1; subst h2
        exact Or.inl ⟨e', he', rfl⟩
      · exact Or.inr ⟨d, c', e', hmem, he', rfl⟩

theorem lookupChild_of_mem {ch : Char} {c : Trie T} :
    ∀ {l : List (Char × Trie T)}, keysSorted l = true → (ch, c) ∈ l →
      lookupChild ch l = some c
  | [], _, hmem => by simp at hmem
  | (k, d) :: rest, hs, hmem => by
    rw [keysSorted_iff, List.pairwise_cons] at hs
    obtain ⟨hk, hrest⟩ := hs
    rcases List.mem_cons.mp hmem with heq | hmem
    · injection heq with h1 h2
      subst h1; subst h2
      simp [lookupChild]
    · have hne : ch ≠ k := fun hcontra => by
        have := hk _ hmem
        rw [hcontra] at this
        exact absurd this (lt_irrefl k)
      simp only [lookupChild, if_neg hne]
      exact lookupChild_of_mem (keysSorted_iff.mpr hrest) hmem

theorem wordExists_append (t : Trie T) (p s : List Char) :
    t.wordExists (p ++ s) = (t.find p).bind fun n => n.wordExists s := by
  rw [wordExists_eq_bind, find_append]
  cases t.find p with
  | none => rfl
  | some n => simp [wordExists_eq_bind]

/-- The entries of a well-formed subtree are exactly its stored key/value
pairs: membership coincides with `wordExists`. -/
theorem mem_entries_iff_wordExists :
    ∀ t : Trie T, t.wf = true →
      ∀ (k : List Char) (v : T), ((k, v) ∈ t.entries ↔ t.wordExists k = some v) := by
  intro t
  induction t using inductionOn with
  | ind o cs ih =>
    intro hwf k v
    rw [wf_node_iff] at hwf
    obtain ⟨hs, hw⟩ := hwf
    constructor
    · intro hmem
      simp only [entries, List.mem_append] at hmem
      rcases hmem with hmem | hmem
      · cases o with
        | none => simp at hmem
        | some u =>
          simp only [Option.toList_some, List.map_cons, List.map_nil,
            List.mem_singleton] at hmem
          injection hmem with h1 h2
          subst h1; subst h2
          simp [wordExists, find, object]
      · rcases mem_entriesList_iff.mp hmem with ⟨ch, c, e', hmem', he', heq⟩
        injection heq with h1 h2
        subst h1; subst h2
        rw [wordExists_cons, lookupChild_of_mem hs hmem']
        exact (ih ch c hmem' (hw _ hmem') e'.1 e'.2).mp he'
    · intro hex
      cases k with
      | nil =>
        simp only [wordExists, find, object_node] at hex
        simp [entries, hex]
      | cons ch rest =>
        rw [wordExists_cons] at hex
        cases hl : lookupChild ch cs with
        | none => rw [hl] at hex; exact absurd hex (by simp)
        | some c =>
          rw [hl] at hex
          have hc := mem_of_lookupChild hl
          have hmem : (rest, v) ∈ entries c := (ih ch c hc (hw _ hc) rest v).mpr hex
          simp only [entries, List.mem_append]
          exact Or.inr (mem_entriesList_iff.mpr ⟨ch, c, (rest, v), hc, hmem, rfl⟩)

theorem lex_append_left {k k' : List Char} (p : List Char)
    (h : List.Lex (· < ·) k k') : List.Lex (· < ·) (p ++ k) (p ++ k') := by
  induction p with
  | nil => exact h
  | cons a p ih => exact List.Lex.cons ih

theorem entriesList_keys_pairwise :
    ∀ l : List (Char × Trie T),
      l.Pairwise (fun a b => a.1 < b.1) →
      (∀ p ∈ l, ((p.2.entries).map Prod.fst).Pairwise (List.Lex (· < ·))) →
      ((entriesList l).map Prod.fst).Pairwise (List.Lex (· < ·)) := by
  intro l
  induction l with
  | nil => intro _ _; simp [entriesList]
  | cons hd rest ih =>
    obtain ⟨ch, c⟩ := hd
    intro hp hall
    rw [List.pairwise_cons] at hp
    obtain ⟨hlt, hrest⟩ := hp
    simp only [entriesList, List.map_append, List.map_map]
    rw [List.pairwise_append]
    refine ⟨?_, ih hrest fun p hp => hall p (List.mem_cons_of_mem _ hp), ?_⟩
    · have h1 := hall (ch, c) (List.mem_cons_self _ _)
      have h2 : (entries c).map (Prod.fst ∘ fun e => (ch :: e.1, e.2))
          = ((entries c).map Prod.fst).map fun k => ch :: k := by
        simp [Function.comp]
      rw [h2]
      exact List.Pairwise.map _ (fun a b hab => List.Lex.cons hab) h1
    · intro a ha b hb
      simp only [List.mem_map, Function.comp] at ha
      obtain ⟨e', _, rfl⟩ := ha
      rcases List.mem_map.mp hb with ⟨e₀, he₀, rfl⟩
      rcases mem_entriesList_iff.mp he₀ with ⟨d, c', e₁, hmem, _, rfl⟩
      exact List.Lex.rel (hlt _ hmem)

/-- The keys of a well-formed subtree's entries are strictly increasing in
lexicographic order. -/
theorem entries_keys_pairwise :
    ∀ t : Trie T, t.wf = true →
      ((t.entries).map Prod.fst).Pairwise (List.Lex (· < ·)) := by
  intro t
  induction t using inductionOn with
  | ind o cs ih =>
    intro hwf
    rw [wf_node_iff] at hwf
    obtain ⟨hs, hw⟩ := hwf
    simp only [entries, List.map_append]
    rw [List.pairwise_append]
    refine ⟨?_, ?_, ?_⟩
    · cases o <;> simp
    · exact entriesList_keys_pairwise cs (keysSorted_iff.mp hs)
        fun p hp => ih p.1 p.2 (by simpa using hp) (hw p hp)
    · intro a ha b hb
      cases o with
      | none => simp at ha
      | some u =>
        simp only [Option.toList_some, List.map_cons, List.map_nil, List.map_map,
          List.mem_singleton] at ha
        subst ha
        rcases List.mem_map.mp hb with ⟨e₀, he₀, rfl⟩
        rcases mem_entriesList_iff.mp he₀ with ⟨d, c', e₁, _, _, rfl⟩
        exact List.Lex.nil

/-- Claim C1: on every well-formed tree, `autoComplete(P)` returns exactly
the values stored at or below the node reached by P — the entries whose
keys extend P, i.e. whose key/value pairs `wordExists` confirms — in the
self-first, ascending-child-key pre-order, whose full keys are strictly
increasing in lexicographic order; a missing path yields the empty
sequence. In particular, on the tree holding "car" ↦ 0, "cat" ↦ 1,
"cart" ↦ 2, "dog" ↦ 3, `autoComplete "ca"` yields the values of "car",
"cart", "cat" in that order, and `autoComplete "xy"` yields nothing. -/
theorem C1_autoComplete_correct (t : Trie T) (P : List Char) (h : t.wf = true) :
    (t.autoComplete P = (t.entriesFrom P).map Prod.snd)
    ∧ (((t.entriesFrom P).map Prod.fst).Pairwise (List.Lex (· < ·)))
    ∧ (∀ (K : List Char) (v : T),
        ((K, v) ∈ t.entriesFrom P ↔ P <+: K ∧ t.wordExists K = some v))
    ∧ (t.find P = none → t.autoComplete P = [])
    ∧ dictExample.autoComplete ['c', 'a'] = [0, 2, 1]
    ∧ dictExample.autoComplete ['x', 'y'] = [] := by
  refine ⟨?_, ?_, ?_, ?_, by decide, by decide⟩
  · cases hf : t.find P with
    | none => simp [autoComplete, entriesFrom, hf]
    | some n =>
      simp only [autoComplete, entriesFrom, hf]
      rw [getAllObjects_eq_entries n, List.map_map]
      rfl
  · cases hf : t.find P with
    | none => simp [entriesFrom, hf]
    | some n =>
      simp only [entriesFrom, hf, List.map_map]
      have h2 : ((entries n).map (Prod.fst ∘ fun e : List Char × T => (P ++ e.1, e.2)))
          = ((entries n).map Prod.fst).map fun k => P ++ k := by
        rw [List.map_map]
        rfl
      rw [h2]
      exact List.Pairwise.map _ (fun a b hab => lex_append_left P hab)
        (entries_keys_pairwise n (wf_find h hf))
  · intro K v
    cases hf : t.find P with
    | none =>
      simp only [entriesFrom, hf]
      constructor
      · intro hmem
        simp at hmem
      · rintro ⟨⟨s, rfl⟩, hex⟩
        rw [wordExists_append, hf] at hex
        exact absurd hex (by simp)
    | some n =>
      simp only [entriesFrom, hf, List.mem_map]
      constructor
      · rintro ⟨e', he', heq⟩
        injection heq with h1 h2
        subst h1; subst h2
        refine ⟨⟨e'.1, rfl⟩, ?_⟩
        rw [wordExists_append, hf]
        simpa using (mem_entries_iff_wordExists n (wf_find h hf) e'.1 e'.2).mp he'
      · rintro ⟨⟨s, rfl⟩, hex⟩
        rw [wordExists_append, hf] at hex
        simp only [Option.some_bind] at hex
        exact ⟨(s, v), (mem_entries_iff_wordExists n (wf_find h hf) s v).mpr hex, rfl⟩
  · intro hf
    simp [autoComplete, hf]

/-- Witness for C1 at the spec's example tree and prefix "ca". -/
theorem C1_autoComplete_correct_witness :
    (dictExample.autoComplete ['c', 'a']
      = (dictExample.entriesFrom ['c', 'a']).map Prod.snd)
    ∧ (((dictExample.entriesFrom ['c', 'a']).map Prod.fst).Pairwise
        (List.Lex (· < ·))) :=
  ⟨(C1_autoComplete_correct dictExample ['c', 'a'] (by decide)).1,
   (C1_autoComplete_correct dictExample ['c', 'a'] (by decide)).2.1⟩

end Sefn.Trie
